import Mathlib

/-!
Verification of the Songle API client (`songle.py`) against its
natural-language specification.

The development shallowly embeds the two algorithmic parts of the
repository:

* `_to_snake_case` / `_convert_keys_to_snake_case` — the camelCase to
  snake_case key converter (two `re.sub` passes followed by `.lower()`),
  embedded as explicit left-to-right scanners with the exact matching
  semantics of the Python patterns;
* `_from_dict` — the generic dict-to-dataclass materializer, embedded
  over an explicit schema representation (`Model` / `FieldType`) of the
  dataclass field tables that `dataclasses.fields` produces at runtime;
* `Songle._get` / `Songle._fetch_and_parse` — the HTTP layer, embedded
  over an explicit outcome type for the transport collaborator.

JSON numbers are embedded as `Int`: the mapper copies scalar values
verbatim and never computes with them, so the numeric representation is
irrelevant to every property proved here.
-/

/-! ## Character classes of the Python regexes

`[A-Z]`, `[a-z]`, `[0-9]` in a Python pattern match exactly the ASCII
ranges; `.` (no DOTALL flag) matches any character except a newline. -/

def isUpperAZ (c : Char) : Bool := 'A' ≤ c && c ≤ 'Z'

def isLowerAZ (c : Char) : Bool := 'a' ≤ c && c ≤ 'z'

def isDigit09 (c : Char) : Bool := '0' ≤ c && c ≤ '9'

def isLowerOrDigit (c : Char) : Bool := isLowerAZ c || isDigit09 c

/-- First char of the list is an ASCII lowercase letter. -/
def headIsLower : List Char → Bool
  | [] => false
  | c :: _ => isLowerAZ c

/-! ## Pass 1: `re.sub("(.)([A-Z][a-z]+)", r"\1_\2", name)`

`re.sub` scans left to right for non-overlapping matches.  A match at
the current position needs: one arbitrary non-newline character `(.)`,
one uppercase letter, and a maximal nonempty run of lowercase letters
(`[a-z]+` is greedy; a longer run cannot change what follows, matching
resumes after the run either way).  The replacement keeps all matched
characters and inserts `_` after the first.

`sub1go c rest` processes the input `c :: rest` where `c` is the
leftmost character not yet consumed by a previous match; `runGo`
copies the lowercase run of a match and then resumes scanning at the
first character after the run. -/

mutual
def sub1go (c : Char) : List Char → List Char
  | [] => [c]
  | u :: t =>
    if c ≠ '\n' && isUpperAZ u && headIsLower t then
      c :: '_' :: u :: runGo t
    else
      c :: sub1go u t
termination_by structural l => l

def runGo : List Char → List Char
  | [] => []
  | x :: xs => if isLowerAZ x then x :: runGo xs else sub1go x xs
termination_by structural l => l
end

def sub1 : List Char → List Char
  | [] => []
  | c :: rest => sub1go c rest

/-! ## Pass 2: `re.sub("([a-z0-9])([A-Z])", r"\1_\2", s1)`

A match consumes two characters; the second (uppercase) can never start
the next match, so the non-overlapping scan advances past both. -/

def sub2 : List Char → List Char
  | [] => []
  | [c] => [c]
  | c :: u :: t =>
    if isLowerOrDigit c && isUpperAZ u then
      c :: '_' :: u :: sub2 t
    else
      c :: sub2 (u :: t)

/-! ## `.lower()`

Embedded for the ASCII range actually inspected by the two patterns:
`str.lower()` maps `A`–`Z` to `a`–`z` (it also lowercases non-ASCII
cased letters, which `[A-Z]`/`[a-z]`/`[0-9]` never match, so that part
of its behavior is invisible to every property below). -/

def lowerChar (c : Char) : Char :=
  if isUpperAZ c then Char.ofNat (c.toNat + 32) else c

/-- Embedding of `_to_snake_case`: the two substitution passes followed
by `.lower()`. -/
def to_snake_case (name : String) : String :=
  String.mk ((sub2 (sub1 name.data)).map lowerChar)

/-! ## The specification's one-pass description of the converter

The spec describes `_to_snake_case` as a single left-to-right scan that
inserts a separator in front of certain characters, determined from the
immediate neighbours alone.  `specGo mark prev l` scans `l` with `prev`
the character immediately to the left of `l`, consulting `mark` at each
position; the first character of the whole string has no predecessor
and never receives a separator (both of the spec's boundary rules need
a preceding character). -/

def specGo (mark : Char → Char → List Char → Bool) (prev : Char) : List Char → List Char
  | [] => []
  | c :: rest => (if mark prev c rest then ['_', c] else [c]) ++ specGo mark c rest

def specIns (mark : Char → Char → List Char → Bool) : List Char → List Char
  | [] => []
  | c :: rest => c :: specGo mark c rest

/-- Modelled from the spec: insert before each uppercase letter that
follows a lowercase letter or digit, and before each uppercase letter
that starts an upper-then-lowercase group when preceded by any
character (the claim's literal boundary rule). -/
def markClaim (prev c : Char) (rest : List Char) : Bool :=
  isUpperAZ c && (isLowerOrDigit prev || headIsLower rest)

/-- The boundary rule as the code actually implements it: in the second
case the preceding character must not be a newline, because `.` in a
Python pattern (without DOTALL) does not match a newline. -/
def markAmended (prev c : Char) (rest : List Char) : Bool :=
  isUpperAZ c && (isLowerOrDigit prev || (prev ≠ '\n' && headIsLower rest))

/-- The claim's one-pass converter, literally as worded. -/
def snakeSpecClaim (s : String) : String :=
  String.mk ((specIns markClaim s.data).map lowerChar)

/-- The one-pass converter amended with the newline restriction. -/
def snakeSpecAmended (s : String) : String :=
  String.mk ((specIns markAmended s.data).map lowerChar)

/-- The pure rule-1 scan; pass 2 of the code is exactly this scan. -/
def mark2 (prev c : Char) (_rest : List Char) : Bool :=
  isLowerOrDigit prev && isUpperAZ c

/-! ## JSON-like values

The value domain of parsed JSON payloads.  Mappings are embedded as
association lists in iteration order (Python dicts preserve insertion
order and this converter and mapper only ever iterate them). -/

inductive JsonValue where
  | null
  | bool (b : Bool)
  | num (n : Int)
  | str (s : String)
  | arr (items : List JsonValue)
  | obj (entries : List (String × JsonValue))

def JsonValue.isObj : JsonValue → Bool
  | .obj _ => true
  | _ => false

def JsonValue.isArr : JsonValue → Bool
  | .arr _ => true
  | _ => false

/-- Inserting `key ↦ val` into a Python dict embedded as an ordered
association list: an existing binding keeps its position and gets the
new value, a new key is appended at the end. -/
def dictSet {α : Type} : List (String × α) → String → α → List (String × α)
  | [], key, val => [(key, val)]
  | (k, v) :: rest, key, val =>
    if k = key then (k, val) :: rest else (k, v) :: dictSet rest key val

/-! ## Embedding of `_convert_keys_to_snake_case`

A dict is rebuilt by the comprehension
`{_to_snake_case(k): recurse(v) for k, v in data.items()}`, i.e. by
inserting the converted entries into a fresh dict in iteration order
(`convObj` with an accumulator); a list is rebuilt element-wise; any
other value is returned unchanged. -/

mutual
def convert_keys_to_snake_case : JsonValue → JsonValue
  | .null => .null
  | .bool b => .bool b
  | .num n => .num n
  | .str s => .str s
  | .arr items => .arr (convList items)
  | .obj entries => .obj (convObj [] entries)
termination_by structural v => v

def convList : List JsonValue → List JsonValue
  | [] => []
  | v :: rest => convert_keys_to_snake_case v :: convList rest
termination_by structural l => l

def convObj (acc : List (String × JsonValue)) :
    List (String × JsonValue) → List (String × JsonValue)
  | [] => acc
  | (k, v) :: rest =>
    convObj (dictSet acc (to_snake_case k) (convert_keys_to_snake_case v)) rest
termination_by structural l => l
end

/-! ## Embedding of `_from_dict`

`_from_dict(model, data)` inspects `model` with `dataclasses.is_dataclass`
and `dataclasses.fields`.  The embedding makes that runtime reflection
explicit: a `Model` is the field table `dataclasses.fields` yields for a
dataclass — for each field its name, the kind of its type annotation
(`list[D]` with `D` a dataclass, a dataclass, or anything else), and its
declared default if any — and a `PyType` is an arbitrary Python type
object: either a dataclass (with its table) or some non-dataclass type.

A constructed dataclass instance is a `Record`; a field value in it is
either a verbatim-copied JSON value, a nested record, or a list of
records (`RValue`). -/

mutual
inductive Record where
  | mk (name : String) (fields : List (String × RValue))

inductive RValue where
  | prim (v : JsonValue)
  | nestedRec (r : Record)
  | nestedList (rs : List Record)
end

mutual
inductive Model where
  | mk (name : String) (fields : List (String × FieldType × Option RValue))

inductive FieldType where
  | scalar
  | nested (m : Model)
  | listOf (m : Model)
end

def Model.name : Model → String
  | .mk n _ => n

def Model.fields : Model → List (String × FieldType × Option RValue)
  | .mk _ fs => fs

/-- `field_types = {f.name: f.type for f in dataclasses.fields(model)}`. -/
def fieldTable (m : Model) : List (String × FieldType) :=
  m.fields.map fun f => (f.1, f.2.1)

/-- A Python type object as `_from_dict` can receive it. -/
inductive PyType where
  | dataclass (m : Model)
  | other (reprName : String)

/-- The errors `_from_dict` can raise.  `schemaErr` is the explicit
`TypeError("Expected a dataclass type, ...")` guard; `missingField` is
the `TypeError` that `model(**kwargs)` raises when required fields are
absent (Python lists every missing field name in that message);
`attrErr` is the `AttributeError` of calling `.items()` on a non-dict. -/
inductive MapError where
  | schemaErr (msg : String)
  | missingField (modelName : String) (missing : List String)
  | attrErr

/-- The field names `model(**kwargs)` reports as missing: declared
fields that were not assigned and have no default. -/
def missingOf (m : Model) (kwargs : List (String × RValue)) : List String :=
  (m.fields.filter fun f => (List.lookup f.1 kwargs).isNone && f.2.2.isNone).map fun f => f.1

/-- `model(**kwargs)`: every declared field takes its keyword argument,
or else its declared default; if any required field is left without a
value the construction raises (the `.prim .null` in the unreachable
branch is never produced — both lookups cannot be `none` once
`missingOf` is empty). -/
def construct (m : Model) (kwargs : List (String × RValue)) : Except MapError Record :=
  if missingOf m kwargs = [] then
    .ok (.mk m.name (m.fields.map fun f =>
      (f.1, match List.lookup f.1 kwargs with
            | some v => v
            | none => match f.2.2 with
                      | some d => d
                      | none => .prim .null)))
  else .error (.missingField m.name (missingOf m kwargs))

mutual
/-- Embedding of `_from_dict`.  A non-dataclass `model` raises the
`TypeError` guard before anything else; then `data.items()` is iterated
(`processEntries`, starting from the empty `kwargs` dict) and the model
is constructed from the collected keyword arguments. -/
def from_dict (model : PyType) (data : JsonValue) : Except MapError Record :=
  match model with
  | .other reprName =>
    .error (.schemaErr ("Expected a dataclass type, but got " ++ reprName ++ "."))
  | .dataclass m =>
    match data with
    | .obj entries =>
      match processEntries m [] entries with
      | .error e => .error e
      | .ok kwargs => construct m kwargs
    | _ => .error .attrErr
termination_by structural data

/-- The `for name, value in data.items()` loop of `_from_dict`: a key
absent from the field table is skipped; a `list[D]` field takes the
element-wise materialization when the value is a list and is otherwise
left unset; a dataclass field recurses when the value is a dict and is
otherwise left unset; any other field copies the value verbatim. -/
def processEntries (m : Model) (kwargs : List (String × RValue)) :
    List (String × JsonValue) → Except MapError (List (String × RValue))
  | [] => .ok kwargs
  | (name, value) :: rest =>
    match List.lookup name (fieldTable m) with
    | none => processEntries m kwargs rest
    | some ft =>
      match ft, value with
      | .listOf em, .arr items =>
        match mapItems em items with
        | .error e => .error e
        | .ok rs => processEntries m (dictSet kwargs name (.nestedList rs)) rest
      | .listOf _, _ => processEntries m kwargs rest
      | .nested em, .obj es =>
        match from_dict (.dataclass em) (.obj es) with
        | .error e => .error e
        | .ok r => processEntries m (dictSet kwargs name (.nestedRec r)) rest
      | .nested _, _ => processEntries m kwargs rest
      | .scalar, _ => processEntries m (dictSet kwargs name (.prim value)) rest
termination_by structural l => l

/-- `[_from_dict(element_type, item) for item in value]` — elements are
materialized in order, and a non-dict element raises just as in Python
(the comprehension calls `_from_dict` on it unconditionally). -/
def mapItems (em : Model) : List JsonValue → Except MapError (List Record)
  | [] => .ok []
  | item :: rest =>
    match from_dict (.dataclass em) item with
    | .error e => .error e
    | .ok r =>
      match mapItems em rest with
      | .error e => .error e
      | .ok rs => .ok (r :: rs)
termination_by structural l => l
end

/-! ## The declared dataclass schemas

The field tables of the dataclasses declared in `songle.py`, exactly as
`dataclasses.fields` reports them: field names in declaration order,
the kind of each annotation, and no declared defaults (none of the
dataclasses in the source declares one). -/

def Artist : Model := .mk "Artist"
  [("id", .scalar, none), ("name", .scalar, none)]

def Song : Model := .mk "Song"
  [("id", .scalar, none), ("title", .scalar, none), ("url", .scalar, none),
   ("permalink", .scalar, none), ("artist", .nested Artist, none),
   ("duration", .scalar, none), ("code", .scalar, none),
   ("rms_amplitude", .scalar, none), ("created_at", .scalar, none),
   ("updated_at", .scalar, none), ("recognized_at", .scalar, none)]

def Beat : Model := .mk "Beat"
  [("index", .scalar, none), ("start", .scalar, none), ("count", .scalar, none),
   ("position", .scalar, none), ("bpm", .scalar, none)]

def BeatInfo : Model := .mk "BeatInfo" [("beats", .listOf Beat, none)]

def Revision : Model := .mk "Revision"
  [("id", .scalar, none), ("created_at", .scalar, none), ("updated_at", .scalar, none)]

def Chord : Model := .mk "Chord"
  [("index", .scalar, none), ("start", .scalar, none),
   ("duration", .scalar, none), ("name", .scalar, none)]

def ChordInfo : Model := .mk "ChordInfo" [("chords", .listOf Chord, none)]

def Note : Model := .mk "Note"
  [("index", .scalar, none), ("start", .scalar, none), ("duration", .scalar, none)]

def MelodyInfo : Model := .mk "MelodyInfo" [("notes", .listOf Note, none)]

def Repeat : Model := .mk "Repeat"
  [("index", .scalar, none), ("start", .scalar, none), ("duration", .scalar, none)]

def ChorusSegment : Model := .mk "ChorusSegment"
  [("index", .scalar, none), ("is_chorus", .scalar, none),
   ("duration", .scalar, none), ("repeats", .listOf Repeat, none)]

def RepeatSegment : Model := .mk "RepeatSegment"
  [("index", .scalar, none), ("is_chorus", .scalar, none),
   ("duration", .scalar, none), ("repeats", .listOf Repeat, none)]

def ChorusInfo : Model := .mk "ChorusInfo"
  [("chorus_segments", .listOf ChorusSegment, none),
   ("repeat_segments", .listOf RepeatSegment, none)]

/-! ## Embedding of the HTTP layer (`Songle._get` and friends)

The transport collaborator (`requests`) is embedded at its interface
boundary: a GET either yields a response — status code, raw body text,
and the value its body parses to — or fails before any response was
obtained (`requests.exceptions.RequestException`: DNS failure,
connection refused, timeout, ...).

`response.raise_for_status()` raises `HTTPError` exactly for status
codes in `[400, 600)`; `_get` turns that into
`SongleApiException(status_code=<real status>, message="Error response
from API: <body text>")`, and turns any other `RequestException` into
`SongleApiException(status_code=500, message="Request failed: ...")`. -/

structure SongleApiException where
  status_code : Int
  message : String

inductive HttpOutcome where
  | response (status : Int) (text : String) (body : JsonValue)
  | networkFailure (msg : String)

/-- Embedding of `Songle._get`. -/
def Songle.get (outcome : HttpOutcome) : Except SongleApiException JsonValue :=
  match outcome with
  | .response status text body =>
    if 400 ≤ status ∧ status < 600 then
      .error ⟨status, "Error response from API: " ++ text⟩
    else .ok body
  | .networkFailure msg => .error ⟨500, "Request failed: " ++ msg⟩

/-- The failure of a public client operation: either the
`SongleApiException` of the HTTP layer or an error of the mapping
layer (distinct Python exception classes). -/
inductive ClientError where
  | api (e : SongleApiException)
  | mapping (e : MapError)

/-- Embedding of `Songle._fetch_and_parse`: GET, normalize keys,
materialize.  Every single-record public operation is this pipeline
applied to its endpoint path and model; the list-of-records operations
share the identical `_get` error path. -/
def Songle.fetch_and_parse (model : PyType) (outcome : HttpOutcome) :
    Except ClientError Record :=
  match Songle.get outcome with
  | .error e => .error (.api e)
  | .ok raw =>
    match from_dict model (convert_keys_to_snake_case raw) with
    | .error e => .error (.mapping e)
    | .ok r => .ok r

/-- Modelled from the spec: "a client-level error carrying a sentinel
status (distinct from any real HTTP code)" — a real HTTP status code is
one in the range the HTTP specs assign, `100`–`599`. -/
def isRealHttpStatus (n : Int) : Prop := 100 ≤ n ∧ n ≤ 599

instance (n : Int) : Decidable (isRealHttpStatus n) := by
  unfold isRealHttpStatus; infer_instance

/-- Modelled from the spec: a 2xx (success) HTTP status. -/
def is2xx (n : Int) : Prop := 200 ≤ n ∧ n < 300

instance (n : Int) : Decidable (is2xx n) := by
  unfold is2xx; infer_instance

/-! ## Record accessors and concrete data for the examples -/

def Record.name : Record → String
  | .mk n _ => n

def Record.fields : Record → List (String × RValue)
  | .mk _ fs => fs

/-- The spec’s Song example payload, after key normalization, with the
extra unknown key `unused_future_field`. -/
def songInput : List (String × JsonValue) :=
  [("id", .num 1), ("title", .str "T"), ("url", .str "u"), ("permalink", .str "p"),
   ("artist", .obj [("id", .num 2), ("name", .str "A")]),
   ("duration", .num 3), ("code", .str "c"), ("rms_amplitude", .num 4),
   ("created_at", .str "t1"), ("updated_at", .str "t2"), ("recognized_at", .str "t3"),
   ("unused_future_field", .num 1)]

def artistRec : Record := .mk "Artist" [("id", .prim (.num 2)), ("name", .prim (.str "A"))]

def songRec : Record := .mk "Song"
  [("id", .prim (.num 1)), ("title", .prim (.str "T")), ("url", .prim (.str "u")),
   ("permalink", .prim (.str "p")), ("artist", .nestedRec artistRec),
   ("duration", .prim (.num 3)), ("code", .prim (.str "c")),
   ("rms_amplitude", .prim (.num 4)), ("created_at", .prim (.str "t1")),
   ("updated_at", .prim (.str "t2")), ("recognized_at", .prim (.str "t3"))]

/-- The Song payload with required `title` absent. -/
def songInputNoTitle : List (String × JsonValue) :=
  songInput.filter fun e => e.1 ≠ "title"

/-- The keyword arguments `_from_dict` collects for `songInputNoTitle`. -/
def songKwNoTitle : List (String × RValue) :=
  [("id", .prim (.num 1)), ("url", .prim (.str "u")), ("permalink", .prim (.str "p")),
   ("artist", .nestedRec artistRec), ("duration", .prim (.num 3)),
   ("code", .prim (.str "c")), ("rms_amplitude", .prim (.num 4)),
   ("created_at", .prim (.str "t1")), ("updated_at", .prim (.str "t2")),
   ("recognized_at", .prim (.str "t3"))]

def beatObj (i : Int) : JsonValue :=
  .obj [("index", .num i), ("start", .num (100 * i)), ("count", .num 4),
        ("position", .num (i + 1)), ("bpm", .num 120)]

def beatRec (i : Int) : Record :=
  .mk "Beat" [("index", .prim (.num i)), ("start", .prim (.num (100 * i))),
              ("count", .prim (.num 4)), ("position", .prim (.num (i + 1))),
              ("bpm", .prim (.num 120))]

/-- A pre-built Artist record used as a declared field default. -/
def artistDefault : Record := .mk "Artist" [("id", .prim (.num 0)), ("name", .prim (.str ""))]

/-- A schema with a nested field that has a declared default (the
source’s own dataclasses declare none, so the default-retention part of
the contract is exercised on this schema). -/
def WithDefault : Model := .mk "WithDefault"
  [("owner", .nested Artist, some (.nestedRec artistDefault))]

/-! ## Helper lemmas: character classes and `lowerChar` -/

theorem char_le_iff_toNat {a b : Char} : a ≤ b ↔ a.toNat ≤ b.toNat := by
  rw [Char.le_def]
  exact ⟨fun h => h, fun h => h⟩

theorem isUpperAZ_iff {c : Char} : isUpperAZ c = true ↔ 65 ≤ c.toNat ∧ c.toNat ≤ 90 := by
  simp only [isUpperAZ, Bool.and_eq_true, decide_eq_true_eq]
  rw [char_le_iff_toNat, char_le_iff_toNat]
  exact ⟨fun ⟨h1, h2⟩ => ⟨h1, h2⟩, fun ⟨h1, h2⟩ => ⟨h1, h2⟩⟩

theorem isLowerAZ_iff {c : Char} : isLowerAZ c = true ↔ 97 ≤ c.toNat ∧ c.toNat ≤ 122 := by
  simp only [isLowerAZ, Bool.and_eq_true, decide_eq_true_eq]
  rw [char_le_iff_toNat, char_le_iff_toNat]
  exact ⟨fun ⟨h1, h2⟩ => ⟨h1, h2⟩, fun ⟨h1, h2⟩ => ⟨h1, h2⟩⟩

theorem isDigit09_iff {c : Char} : isDigit09 c = true ↔ 48 ≤ c.toNat ∧ c.toNat ≤ 57 := by
  simp only [isDigit09, Bool.and_eq_true, decide_eq_true_eq]
  rw [char_le_iff_toNat, char_le_iff_toNat]
  exact ⟨fun ⟨h1, h2⟩ => ⟨h1, h2⟩, fun ⟨h1, h2⟩ => ⟨h1, h2⟩⟩

theorem toNat_lowerChar_upper {c : Char} (h : isUpperAZ c = true) :
    (lowerChar c).toNat = c.toNat + 32 := by
  have hb := isUpperAZ_iff.mp h
  unfold lowerChar
  rw [if_pos h]
  have hv : (c.toNat + 32).isValidChar := Or.inl (by omega)
  rw [Char.ofNat, dif_pos hv]
  simp [Char.ofNatAux, Char.toNat, UInt32.toNat]

theorem isUpperAZ_lowerChar (c : Char) : isUpperAZ (lowerChar c) = false := by
  by_cases h : isUpperAZ c = true
  · have := toNat_lowerChar_upper h
    have hb := isUpperAZ_iff.mp h
    rw [Bool.eq_false_iff]
    intro hcon
    have := isUpperAZ_iff.mp hcon
    omega
  · have h' : isUpperAZ c = false := Bool.not_eq_true _ |>.mp h
    simp [lowerChar, h']

theorem lowerChar_idem (c : Char) : lowerChar (lowerChar c) = lowerChar c := by
  rw [lowerChar, isUpperAZ_lowerChar, if_neg (by simp)]

theorem upper_not_lower {c : Char} (h : isUpperAZ c = true) : isLowerAZ c = false := by
  have := isUpperAZ_iff.mp h
  rw [Bool.eq_false_iff]
  intro hcon
  have := isLowerAZ_iff.mp hcon
  omega

theorem upper_not_lowdig {c : Char} (h : isUpperAZ c = true) : isLowerOrDigit c = false := by
  have h1 := isUpperAZ_iff.mp h
  rw [Bool.eq_false_iff]
  intro hcon
  rcases Bool.or_eq_true _ _ |>.mp hcon with h2 | h2
  · have := isLowerAZ_iff.mp h2; omega
  · have := isDigit09_iff.mp h2; omega

theorem lower_not_upper {c : Char} (h : isLowerAZ c = true) : isUpperAZ c = false := by
  have := isLowerAZ_iff.mp h
  rw [Bool.eq_false_iff]
  intro hcon
  have := isUpperAZ_iff.mp hcon
  omega

theorem lower_lowdig {c : Char} (h : isLowerAZ c = true) : isLowerOrDigit c = true := by
  simp [isLowerOrDigit, h]

theorem isUpperAZ_underscore : isUpperAZ '_' = false := by decide

theorem isLowerOrDigit_underscore : isLowerOrDigit '_' = false := by decide

theorem isLowerOrDigit_newline : isLowerOrDigit '\n' = false := by decide

/-! ## Pass 2 is the rule-1 local scan -/

theorem specGo_mark2_skip {prev : Char} (h : isLowerOrDigit prev = false)
    (l : List Char) : specGo mark2 prev l = specIns mark2 l := by
  cases l with
  | nil => rfl
  | cons x xs => simp [specGo, specIns, mark2, h]

theorem sub2_eq_spec : ∀ (n : Nat) (l : List Char), l.length ≤ n →
    sub2 l = specIns mark2 l := by
  intro n
  induction n with
  | zero =>
    intro l hl
    match l with
    | [] => rfl
    | c :: rest => simp at hl
  | succ n ih =>
    intro l hl
    match l with
    | [] => rfl
    | [c] => rfl
    | c :: u :: t =>
      by_cases hm : (isLowerOrDigit c && isUpperAZ u) = true
      · have hu : isUpperAZ u = true := (Bool.and_eq_true _ _ |>.mp hm).2
        have hnd : isLowerOrDigit u = false := upper_not_lowdig hu
        rw [sub2, if_pos hm]
        rw [specIns, specGo, if_pos (by simpa [mark2] using hm)]
        rw [specGo_mark2_skip hnd]
        have := ih t (by simp at hl ⊢; omega)
        simp [this]
      · have hm' : (isLowerOrDigit c && isUpperAZ u) = false := Bool.not_eq_true _ |>.mp hm
        rw [sub2, if_neg (by simp [hm'])]
        rw [specIns, specGo, if_neg (by simp [mark2, hm'])]
        have := ih (u :: t) (by simp at hl ⊢; omega)
        rw [this, specIns]
        simp

/-! ## The two passes compose to the amended local rule

`specMain` relates pass 2 applied to pass 1's output, from any scan
state, to the one-pass amended rule.  Its hypothesis records the one
fact needed about the already-consumed character to the left: whenever
pass 1 could no longer see a match starting at that character (because
a previous match consumed it), that character is a lowercase letter —
which holds at every resume point, since matches of pass 1 end in a
lowercase run — so pass 2's rule 1 re-creates exactly the separator
pass 1 missed. -/

mutual
theorem specMain : ∀ (rest : List Char) (c prev : Char),
    (isUpperAZ c = true → prev ≠ '\n' → headIsLower rest = true → isLowerOrDigit prev = true) →
    specGo mark2 prev (sub1go c rest) = specGo markAmended prev (c :: rest)
  | [], c, prev, _ => by
    rw [show sub1go c [] = [c] from rfl]
    cases hlp : isLowerOrDigit prev <;> cases hup : isUpperAZ c <;>
      simp [specGo, mark2, markAmended, headIsLower, hlp, hup]
  | u :: t, c, prev, hyp => by
    by_cases hm : (c ≠ '\n' && isUpperAZ u && headIsLower t) = true
    · have h3 : (c ≠ '\n' ∧ isUpperAZ u = true) ∧ headIsLower t = true := by
        simpa [Bool.and_eq_true, decide_eq_true_eq] using hm
      obtain ⟨⟨hc, hu⟩, ht⟩ := h3
      have hlu : isLowerAZ u = false := upper_not_lower hu
      rw [show sub1go c (u :: t) = c :: '_' :: u :: runGo t from by rw [sub1go, if_pos hm]]
      have hrun := specRun t u (Or.inl ht)
      have hmark : markAmended c u t = true := by
        simp [markAmended, hu, hc, ht]
      simp only [specGo, hrun]
      have e1 : mark2 c '_' (u :: runGo t) = false := by
        simp [mark2, isUpperAZ_underscore]
      have e2 : mark2 '_' u (runGo t) = false := by
        simp [mark2, isLowerOrDigit_underscore]
      have e4 : markAmended prev c (u :: t) = mark2 prev c ('_' :: u :: runGo t) := by
        simp only [markAmended, mark2, headIsLower, hlu, Bool.and_false, Bool.or_false]
        exact Bool.and_comm _ _
      rw [e1, e2, hmark, e4]
      simp
    · have hm' : (c ≠ '\n' && isUpperAZ u && headIsLower t) = false :=
        Bool.not_eq_true _ |>.mp hm
      rw [show sub1go c (u :: t) = c :: sub1go u t from by
        rw [sub1go, if_neg (by rw [hm']; exact Bool.false_ne_true)]]
      have hyp2 : isUpperAZ u = true → c ≠ '\n' → headIsLower t = true →
          isLowerOrDigit c = true := by
        intro h1 h2 h3
        exfalso
        have hcontra : (c ≠ '\n' && isUpperAZ u && headIsLower t) = true := by
          simp only [h1, h3, Bool.and_true]
          simpa using h2
        rw [hm'] at hcontra
        exact Bool.false_ne_true hcontra
      have hmain := specMain t u c hyp2
      have hcond : markAmended prev c (u :: t) = mark2 prev c (u :: t) := by
        cases hup : isUpperAZ c with
        | false => simp [markAmended, mark2, hup]
        | true =>
          cases hlp : isLowerOrDigit prev with
          | true => simp [markAmended, mark2, hup, hlp]
          | false =>
            have hno : ¬ (prev ≠ '\n' ∧ headIsLower (u :: t) = true) := by
              rintro ⟨hne, hh⟩
              have := hyp hup hne hh
              rw [hlp] at this
              exact Bool.false_ne_true this
            by_cases hne : prev = '\n'
            · simp [markAmended, mark2, hup, hlp, hne]
            · have hh : headIsLower (u :: t) = false := by
                cases hhh : headIsLower (u :: t)
                · rfl
                · exact absurd ⟨hne, hhh⟩ hno
              simp [markAmended, mark2, hup, hlp, hne, hh]
      simp only [specGo, hmain, hcond]
      simp [mark2]
termination_by rest => rest.length

theorem specRun : ∀ (t : List Char) (prev : Char),
    (headIsLower t = true ∨ isLowerOrDigit prev = true) →
    specGo mark2 prev (runGo t) = specGo markAmended prev t
  | [], _, _ => rfl
  | x :: xs, prev, hyp => by
    by_cases hl : isLowerAZ x = true
    · have hxu : isUpperAZ x = false := lower_not_upper hl
      rw [show runGo (x :: xs) = x :: runGo xs from by rw [runGo, if_pos hl]]
      have hrun := specRun xs x (Or.inr (lower_lowdig hl))
      simp only [specGo, mark2, markAmended, hxu, Bool.and_false, Bool.false_and,
        if_false, hrun]
    · have hl' : isLowerAZ x = false := Bool.not_eq_true _ |>.mp hl
      rw [show runGo (x :: xs) = sub1go x xs from by
        rw [runGo, if_neg (by rw [hl']; exact Bool.false_ne_true)]]
      have hlp : isLowerOrDigit prev = true := by
        rcases hyp with h | h
        · rw [show headIsLower (x :: xs) = isLowerAZ x from rfl, hl'] at h
          exact absurd h Bool.false_ne_true
        · exact h
      exact specMain xs x prev (fun _ _ _ => hlp)
termination_by t => t.length
end

theorem specGo_newline_amended (l : List Char) :
    specGo markAmended '\n' l = specIns markAmended l := by
  cases l with
  | nil => rfl
  | cons x xs =>
    simp [specGo, specIns, markAmended, isLowerOrDigit_newline]

theorem sub1_spec (l : List Char) : specIns mark2 (sub1 l) = specIns markAmended l := by
  cases l with
  | nil => rfl
  | cons c rest =>
    rw [show sub1 (c :: rest) = sub1go c rest from rfl]
    rw [← specGo_mark2_skip isLowerOrDigit_newline, ← specGo_newline_amended]
    exact specMain rest c '\n' (fun _ hne _ => absurd rfl hne)

theorem to_snake_case_eq_amended (s : String) : to_snake_case s = snakeSpecAmended s := by
  unfold to_snake_case snakeSpecAmended
  rw [sub2_eq_spec (sub1 s.data).length (sub1 s.data) Nat.le.refl, sub1_spec]

/-! ## Idempotence machinery for the converter -/

theorem sub1go_no_upper : ∀ (rest : List Char) (c : Char),
    (∀ x ∈ rest, isUpperAZ x = false) → sub1go c rest = c :: rest
  | [], c, _ => rfl
  | u :: t, c, h => by
    have hu : isUpperAZ u = false := h u (List.mem_cons_self u t)
    rw [sub1go, if_neg (by rw [hu]; simp)]
    rw [sub1go_no_upper t u (fun x hx => h x (List.mem_cons_of_mem u hx))]

theorem sub1_no_upper (l : List Char) (h : ∀ x ∈ l, isUpperAZ x = false) :
    sub1 l = l := by
  cases l with
  | nil => rfl
  | cons c rest =>
    exact sub1go_no_upper rest c (fun x hx => h x (List.mem_cons_of_mem c hx))

theorem sub2_no_upper : ∀ (l : List Char), (∀ x ∈ l, isUpperAZ x = false) → sub2 l = l
  | [], _ => rfl
  | [_], _ => rfl
  | c :: u :: t, h => by
    have hu : isUpperAZ u = false := h u (by simp)
    rw [sub2, if_neg (by rw [hu]; simp)]
    rw [sub2_no_upper (u :: t) (fun x hx => h x (List.mem_cons_of_mem c hx))]

theorem no_upper_map_lower (l : List Char) :
    ∀ x ∈ l.map lowerChar, isUpperAZ x = false := by
  intro x hx
  obtain ⟨y, _, rfl⟩ := List.mem_map.mp hx
  exact isUpperAZ_lowerChar y

theorem map_lower_idem (l : List Char) :
    (l.map lowerChar).map lowerChar = l.map lowerChar := by
  rw [List.map_map]
  exact List.map_congr_left (fun x _ => lowerChar_idem x)

theorem to_snake_case_idem (s : String) :
    to_snake_case (to_snake_case s) = to_snake_case s := by
  unfold to_snake_case
  rw [show (String.mk ((sub2 (sub1 s.data)).map lowerChar)).data
        = (sub2 (sub1 s.data)).map lowerChar from rfl]
  rw [sub1_no_upper _ (no_upper_map_lower _), sub2_no_upper _ (no_upper_map_lower _),
    map_lower_idem]

/-! ## Dict-insertion lemmas -/

theorem dictSet_mem {α : Type} : ∀ (acc : List (String × α)) (k : String) (v : α)
    (p : String × α), p ∈ dictSet acc k v → p ∈ acc ∨ p = (k, v)
  | [], _, _, p, hp => Or.inr (by simpa [dictSet] using hp)
  | (a, b) :: rest, k, v, p, hp => by
    rw [dictSet] at hp
    by_cases hak : a = k
    · rw [if_pos hak] at hp
      rcases List.mem_cons.mp hp with h | h
      · right; rw [h, hak]
      · left; exact List.mem_cons_of_mem _ h
    · rw [if_neg hak] at hp
      rcases List.mem_cons.mp hp with h | h
      · left; rw [h]; exact List.mem_cons_self _ _
      · rcases dictSet_mem rest k v p h with h2 | h2
        · left; exact List.mem_cons_of_mem _ h2
        · right; exact h2

theorem dictSet_key_mem {α : Type} (acc : List (String × α)) (k : String) (v : α)
    (x : String) (hx : x ∈ (dictSet acc k v).map Prod.fst) :
    x ∈ acc.map Prod.fst ∨ x = k := by
  obtain ⟨p, hp, rfl⟩ := List.mem_map.mp hx
  rcases dictSet_mem acc k v p hp with h | h
  · left; exact List.mem_map_of_mem _ h
  · right; rw [h]

theorem dictSet_not_mem_key {α : Type} : ∀ (acc : List (String × α)) (k : String) (v : α),
    k ∉ acc.map Prod.fst → dictSet acc k v = acc ++ [(k, v)]
  | [], _, _, _ => rfl
  | (a, b) :: rest, k, v, h => by
    have hak : a ≠ k := by
      intro he
      exact h (by rw [← he]; exact List.mem_map_of_mem _ (List.mem_cons_self _ _))
    rw [dictSet, if_neg hak]
    rw [dictSet_not_mem_key rest k v (fun hm => h (by
      rcases List.mem_map.mp hm with ⟨p, hp, he⟩
      exact he ▸ List.mem_map_of_mem _ (List.mem_cons_of_mem _ hp)))]
    rfl

theorem dictSet_keys_nodup {α : Type} : ∀ (acc : List (String × α)) (k : String) (v : α),
    (acc.map Prod.fst).Nodup → ((dictSet acc k v).map Prod.fst).Nodup
  | [], _, _, _ => by simp [dictSet]
  | (a, b) :: rest, k, v, h => by
    rw [List.map_cons, List.nodup_cons] at h
    obtain ⟨ha, hrest⟩ := h
    rw [dictSet]
    by_cases hak : a = k
    · rw [if_pos hak]
      rw [List.map_cons, List.nodup_cons]
      exact ⟨ha, hrest⟩
    · rw [if_neg hak]
      rw [List.map_cons, List.nodup_cons]
      refine ⟨fun hm => ?_, dictSet_keys_nodup rest k v hrest⟩
      rcases dictSet_key_mem rest k v a hm with h2 | h2
      · exact ha h2
      · exact hak h2

theorem lookup_dictSet {α : Type} : ∀ (acc : List (String × α)) (k x : String) (v : α),
    List.lookup x (dictSet acc k v) = if x = k then some v else List.lookup x acc
  | [], k, x, v => by
    by_cases hxk : x = k
    · have hb : (x == k) = true := beq_iff_eq.mpr hxk
      simp [dictSet, List.lookup, hb, hxk]
    · have hb : (x == k) = false := beq_eq_false_iff_ne.mpr hxk
      simp [dictSet, List.lookup, hb, hxk]
  | (a, b) :: rest, k, x, v => by
    by_cases hak : a = k
    · rw [dictSet, if_pos hak]
      by_cases hxa : x = a
      · have hxk : x = k := hxa.trans hak
        have hb : (x == a) = true := beq_iff_eq.mpr hxa
        have hb2 : (k == a) = true := beq_iff_eq.mpr hak.symm
        simp [List.lookup, hb, hxk, hb2]
      · have hxk : x ≠ k := fun he => hxa (he.trans hak.symm)
        have hb : (x == a) = false := beq_eq_false_iff_ne.mpr hxa
        simp [List.lookup, hb, hxk]
    · rw [dictSet, if_neg hak]
      by_cases hxa : x = a
      · have hxk : x ≠ k := fun he => hak (hxa.symm.trans he)
        have hb : (x == a) = true := beq_iff_eq.mpr hxa
        simp [List.lookup, hb, hxk]
      · have hb : (x == a) = false := beq_eq_false_iff_ne.mpr hxa
        simp only [List.lookup, hb]
        exact lookup_dictSet rest k x v

/-! ## Structure of the converted object -/

theorem convList_eq_map : ∀ (l : List JsonValue),
    convList l = l.map convert_keys_to_snake_case
  | [] => rfl
  | v :: rest => by rw [convList, convList_eq_map rest, List.map_cons]

theorem convObj_mem : ∀ (entries acc : List (String × JsonValue)) (p : String × JsonValue),
    p ∈ convObj acc entries →
    p ∈ acc ∨ ∃ q ∈ entries, p = (to_snake_case q.1, convert_keys_to_snake_case q.2)
  | [], _, _, hp => Or.inl hp
  | (k, v) :: rest, acc, p, hp => by
    rw [convObj] at hp
    rcases convObj_mem rest _ p hp with h | h
    · rcases dictSet_mem _ _ _ _ h with h2 | h2
      · exact Or.inl h2
      · exact Or.inr ⟨(k, v), List.mem_cons_self _ _, h2⟩
    · obtain ⟨q, hq, he⟩ := h
      exact Or.inr ⟨q, List.mem_cons_of_mem _ hq, he⟩

theorem convObj_keys_nodup : ∀ (entries acc : List (String × JsonValue)),
    (acc.map Prod.fst).Nodup → ((convObj acc entries).map Prod.fst).Nodup
  | [], _, h => h
  | (k, v) :: rest, acc, h => by
    rw [convObj]
    exact convObj_keys_nodup rest _ (dictSet_keys_nodup acc _ _ h)

theorem convObj_eq_map : ∀ (entries acc : List (String × JsonValue)),
    (entries.map fun p => to_snake_case p.1).Nodup →
    (∀ p ∈ entries, to_snake_case p.1 ∉ acc.map Prod.fst) →
    convObj acc entries
      = acc ++ entries.map fun p => (to_snake_case p.1, convert_keys_to_snake_case p.2)
  | [], acc, _, _ => by simp [convObj]
  | (k, v) :: rest, acc, hnd, hdisj => by
    rw [convObj]
    rw [dictSet_not_mem_key acc _ _ (hdisj (k, v) (List.mem_cons_self _ _))]
    rw [List.map_cons, List.nodup_cons] at hnd
    rw [convObj_eq_map rest _ hnd.2 ?_]
    · simp
    · intro p hp hmem
      rw [List.map_append, List.map_cons] at hmem
      rcases List.mem_append.mp hmem with h | h
      · exact hdisj p (List.mem_cons_of_mem _ hp) h
      · rcases List.mem_cons.mp h with h2 | h2
        · have hmm2 := List.mem_map_of_mem (fun q : String × JsonValue => to_snake_case q.1) hp
          exact hnd.1 (by simpa [h2] using hmm2)
        · simp at h2

/-! ## Idempotence of the recursive key conversion -/

theorem sizeOf_val_lt_obj {k : String} {v : JsonValue}
    {entries : List (String × JsonValue)} (h : (k, v) ∈ entries) :
    sizeOf v < sizeOf (JsonValue.obj entries) := by
  have h1 := List.sizeOf_lt_of_mem h
  have h2 : sizeOf (k, v) = 1 + sizeOf k + sizeOf v := rfl
  simp only [JsonValue.obj.sizeOf_spec]
  omega

theorem sizeOf_item_lt_arr {v : JsonValue} {items : List JsonValue} (h : v ∈ items) :
    sizeOf v < sizeOf (JsonValue.arr items) := by
  have h1 := List.sizeOf_lt_of_mem h
  simp only [JsonValue.arr.sizeOf_spec]
  omega

theorem conv_idem_aux : ∀ (n : Nat) (v : JsonValue), sizeOf v ≤ n →
    convert_keys_to_snake_case (convert_keys_to_snake_case v)
      = convert_keys_to_snake_case v := by
  intro n
  induction n using Nat.strong_induction_on with
  | _ n ih =>
    intro v hv
    match v with
    | .null => rfl
    | .bool b => rfl
    | .num m => rfl
    | .str s => rfl
    | .arr items =>
      rw [show convert_keys_to_snake_case (.arr items) = .arr (convList items) from rfl]
      rw [show ∀ l, convert_keys_to_snake_case (.arr l) = .arr (convList l) from fun _ => rfl]
      rw [convList_eq_map, convList_eq_map, List.map_map]
      refine congrArg _ (List.map_congr_left fun x hx => ?_)
      have hlt : sizeOf x < sizeOf (JsonValue.arr items) := sizeOf_item_lt_arr hx
      exact ih (sizeOf x) (by omega) x Nat.le.refl
    | .obj entries =>
      rw [show convert_keys_to_snake_case (.obj entries) = .obj (convObj [] entries) from rfl]
      rw [show ∀ l, convert_keys_to_snake_case (.obj l) = .obj (convObj [] l) from fun _ => rfl]
      refine congrArg _ ?_
      have hfix : ∀ p ∈ convObj [] entries,
          to_snake_case p.1 = p.1 ∧ convert_keys_to_snake_case p.2 = p.2 := by
        intro p hp
        rcases convObj_mem entries [] p hp with h | h
        · simp at h
        · obtain ⟨q, hq, rfl⟩ := h
          refine ⟨to_snake_case_idem q.1, ?_⟩
          have hlt : sizeOf q.2 < sizeOf (JsonValue.obj entries) := by
            have : (q.1, q.2) ∈ entries := by simpa using hq
            exact sizeOf_val_lt_obj this
          exact ih (sizeOf q.2) (by omega) q.2 Nat.le.refl
      have hnodup : ((convObj [] entries).map Prod.fst).Nodup :=
        convObj_keys_nodup entries [] (by simp)
      rw [convObj_eq_map (convObj [] entries) [] ?_ (by simp)]
      · rw [List.nil_append]
        have : (convObj [] entries).map
            (fun p => (to_snake_case p.1, convert_keys_to_snake_case p.2))
            = (convObj [] entries).map id := by
          refine List.map_congr_left fun p hp => ?_
          obtain ⟨h1, h2⟩ := hfix p hp
          cases p with
          | mk a b => simp only [h1, h2, id]
      
        rw [this, List.map_id]
      · have : (convObj [] entries).map (fun p => to_snake_case p.1)
            = (convObj [] entries).map Prod.fst := by
          exact List.map_congr_left fun p hp => (hfix p hp).1
        rw [this]
        exact hnodup

theorem conv_idem (v : JsonValue) :
    convert_keys_to_snake_case (convert_keys_to_snake_case v)
      = convert_keys_to_snake_case v :=
  conv_idem_aux (sizeOf v) v Nat.le.refl

/-! ## Helper lemmas about `from_dict` -/


theorem processEntries_nil (m : Model) (kwargs : List (String × RValue)) :
    processEntries m kwargs [] = .ok kwargs := by
  rw [processEntries.eq_def]

theorem processEntries_skip_unknown (m : Model) (kwargs : List (String × RValue))
    (name : String) (value : JsonValue) (rest : List (String × JsonValue))
    (h : List.lookup name (fieldTable m) = none) :
    processEntries m kwargs ((name, value) :: rest) = processEntries m kwargs rest := by
  rw [processEntries.eq_def]
  simp only []
  rw [h]

theorem processEntries_scalar (m : Model) (kwargs : List (String × RValue))
    (name : String) (value : JsonValue) (rest : List (String × JsonValue))
    (h : List.lookup name (fieldTable m) = some .scalar) :
    processEntries m kwargs ((name, value) :: rest)
      = processEntries m (dictSet kwargs name (.prim value)) rest := by
  rw [processEntries.eq_def]
  simp only []
  rw [h]

theorem processEntries_nested_skip (m : Model) (kwargs : List (String × RValue))
    (name : String) (value : JsonValue) (rest : List (String × JsonValue)) (em : Model)
    (h : List.lookup name (fieldTable m) = some (.nested em))
    (hno : value.isObj = false) :
    processEntries m kwargs ((name, value) :: rest) = processEntries m kwargs rest := by
  rw [processEntries.eq_def]
  simp only []
  rw [h]
  cases value with
  | obj es => simp [JsonValue.isObj] at hno
  | null => rfl
  | bool b => rfl
  | num q => rfl
  | str s => rfl
  | arr items => rfl

theorem processEntries_nested_obj_err (m : Model) (kwargs : List (String × RValue))
    (name : String) (es : List (String × JsonValue)) (rest : List (String × JsonValue))
    (em : Model) (e : MapError)
    (h : List.lookup name (fieldTable m) = some (.nested em))
    (hfd : from_dict (.dataclass em) (.obj es) = .error e) :
    processEntries m kwargs ((name, .obj es) :: rest) = .error e := by
  rw [processEntries.eq_def]
  simp only []
  rw [h]
  simp only []
  rw [hfd]

theorem processEntries_nested_obj_ok (m : Model) (kwargs : List (String × RValue))
    (name : String) (es : List (String × JsonValue)) (rest : List (String × JsonValue))
    (em : Model) (r : Record)
    (h : List.lookup name (fieldTable m) = some (.nested em))
    (hfd : from_dict (.dataclass em) (.obj es) = .ok r) :
    processEntries m kwargs ((name, .obj es) :: rest)
      = processEntries m (dictSet kwargs name (.nestedRec r)) rest := by
  rw [processEntries.eq_def]
  simp only []
  rw [h]
  simp only []
  rw [hfd]

theorem processEntries_list_skip (m : Model) (kwargs : List (String × RValue))
    (name : String) (value : JsonValue) (rest : List (String × JsonValue)) (em : Model)
    (h : List.lookup name (fieldTable m) = some (.listOf em))
    (hno : value.isArr = false) :
    processEntries m kwargs ((name, value) :: rest) = processEntries m kwargs rest := by
  rw [processEntries.eq_def]
  simp only []
  rw [h]
  cases value with
  | arr items => simp [JsonValue.isArr] at hno
  | null => rfl
  | bool b => rfl
  | num q => rfl
  | str s => rfl
  | obj es => rfl

theorem processEntries_list_err (m : Model) (kwargs : List (String × RValue))
    (name : String) (items : List JsonValue) (rest : List (String × JsonValue))
    (em : Model) (e : MapError)
    (h : List.lookup name (fieldTable m) = some (.listOf em))
    (hmi : mapItems em items = .error e) :
    processEntries m kwargs ((name, .arr items) :: rest) = .error e := by
  rw [processEntries.eq_def]
  simp only []
  rw [h]
  simp only []
  rw [hmi]

theorem processEntries_list_ok (m : Model) (kwargs : List (String × RValue))
    (name : String) (items : List JsonValue) (rest : List (String × JsonValue))
    (em : Model) (rs : List Record)
    (h : List.lookup name (fieldTable m) = some (.listOf em))
    (hmi : mapItems em items = .ok rs) :
    processEntries m kwargs ((name, .arr items) :: rest)
      = processEntries m (dictSet kwargs name (.nestedList rs)) rest := by
  rw [processEntries.eq_def]
  simp only []
  rw [h]
  simp only []
  rw [hmi]

theorem mapItems_nil (em : Model) : mapItems em [] = .ok [] := by
  rw [mapItems.eq_def]

theorem mapItems_cons_err (em : Model) (item : JsonValue) (rest : List JsonValue)
    (e : MapError) (hfd : from_dict (.dataclass em) item = .error e) :
    mapItems em (item :: rest) = .error e := by
  rw [mapItems.eq_def]
  simp only []
  rw [hfd]

theorem mapItems_cons_ok_err (em : Model) (item : JsonValue) (rest : List JsonValue)
    (r : Record) (e : MapError) (hfd : from_dict (.dataclass em) item = .ok r)
    (hmi : mapItems em rest = .error e) :
    mapItems em (item :: rest) = .error e := by
  rw [mapItems.eq_def]
  simp only []
  rw [hfd]
  simp only []
  rw [hmi]

theorem mapItems_cons_ok_ok (em : Model) (item : JsonValue) (rest : List JsonValue)
    (r : Record) (rs : List Record) (hfd : from_dict (.dataclass em) item = .ok r)
    (hmi : mapItems em rest = .ok rs) :
    mapItems em (item :: rest) = .ok (r :: rs) := by
  rw [mapItems.eq_def]
  simp only []
  rw [hfd]
  simp only []
  rw [hmi]

theorem from_dict_other (reprName : String) (data : JsonValue) :
    from_dict (.other reprName) data
      = .error (.schemaErr ("Expected a dataclass type, but got " ++ reprName ++ ".")) := by
  rw [from_dict.eq_def]

theorem from_dict_not_obj (m : Model) (data : JsonValue) (hno : data.isObj = false) :
    from_dict (.dataclass m) data = .error .attrErr := by
  rw [from_dict.eq_def]
  cases data with
  | obj es => simp [JsonValue.isObj] at hno
  | null => rfl
  | bool b => rfl
  | num q => rfl
  | str s => rfl
  | arr items => rfl

theorem from_dict_obj_err (m : Model) (entries : List (String × JsonValue)) (e : MapError)
    (hpe : processEntries m [] entries = .error e) :
    from_dict (.dataclass m) (.obj entries) = .error e := by
  rw [from_dict.eq_def]
  simp only []
  rw [hpe]

theorem from_dict_obj_ok (m : Model) (entries : List (String × JsonValue))
    (kwargs : List (String × RValue)) (hpe : processEntries m [] entries = .ok kwargs) :
    from_dict (.dataclass m) (.obj entries) = construct m kwargs := by
  rw [from_dict.eq_def]
  simp only []
  rw [hpe]

/-! ## Unknown keys are ignored -/

theorem processEntries_filter : ∀ (entries : List (String × JsonValue)) (m : Model)
    (kwargs : List (String × RValue)),
    processEntries m kwargs (entries.filter fun e => (List.lookup e.1 (fieldTable m)).isSome)
      = processEntries m kwargs entries
  | [], _, _ => rfl
  | (name, value) :: rest, m, kwargs => by
    rw [List.filter_cons]
    cases hlk : List.lookup name (fieldTable m) with
    | none =>
      rw [if_neg (by simp [hlk])]
      rw [processEntries_skip_unknown m kwargs name value rest hlk]
      exact processEntries_filter rest m kwargs
    | some ft =>
      rw [if_pos (by simp [hlk])]
      cases ft with
      | scalar =>
        rw [processEntries_scalar m kwargs name value rest hlk,
          processEntries_scalar m kwargs name value
            (rest.filter fun e => (List.lookup e.1 (fieldTable m)).isSome) hlk]
        exact processEntries_filter rest m _
      | nested em =>
        cases hv : value.isObj with
        | false =>
          rw [processEntries_nested_skip m kwargs name value rest em hlk hv,
            processEntries_nested_skip m kwargs name value _ em hlk hv]
          exact processEntries_filter rest m kwargs
        | true =>
          cases value with
          | obj es =>
            cases hfd : from_dict (.dataclass em) (.obj es) with
            | error e =>
              rw [processEntries_nested_obj_err m kwargs name es rest em e hlk hfd,
                processEntries_nested_obj_err m kwargs name es _ em e hlk hfd]
            | ok r =>
              rw [processEntries_nested_obj_ok m kwargs name es rest em r hlk hfd,
                processEntries_nested_obj_ok m kwargs name es _ em r hlk hfd]
              exact processEntries_filter rest m _
          | null => simp [JsonValue.isObj] at hv
          | bool b => simp [JsonValue.isObj] at hv
          | num q => simp [JsonValue.isObj] at hv
          | str s => simp [JsonValue.isObj] at hv
          | arr items => simp [JsonValue.isObj] at hv
      | listOf em =>
        cases hv : value.isArr with
        | false =>
          rw [processEntries_list_skip m kwargs name value rest em hlk hv,
            processEntries_list_skip m kwargs name value _ em hlk hv]
          exact processEntries_filter rest m kwargs
        | true =>
          cases value with
          | arr items =>
            cases hmi : mapItems em items with
            | error e =>
              rw [processEntries_list_err m kwargs name items rest em e hlk hmi,
                processEntries_list_err m kwargs name items _ em e hlk hmi]
            | ok rs =>
              rw [processEntries_list_ok m kwargs name items rest em rs hlk hmi,
                processEntries_list_ok m kwargs name items _ em rs hlk hmi]
              exact processEntries_filter rest m _
          | null => simp [JsonValue.isArr] at hv
          | bool b => simp [JsonValue.isArr] at hv
          | num q => simp [JsonValue.isArr] at hv
          | str s => simp [JsonValue.isArr] at hv
          | obj es => simp [JsonValue.isArr] at hv
termination_by entries _ _ => entries.length
decreasing_by all_goals simp

theorem from_dict_filter (m : Model) (entries : List (String × JsonValue)) :
    from_dict (.dataclass m)
        (.obj (entries.filter fun e => (List.lookup e.1 (fieldTable m)).isSome))
      = from_dict (.dataclass m) (.obj entries) := by
  cases hpe : processEntries m [] entries with
  | error e =>
    rw [from_dict_obj_err m entries e hpe,
      from_dict_obj_err m _ e (by rw [processEntries_filter entries m []]; exact hpe)]
  | ok kwargs =>
    rw [from_dict_obj_ok m entries kwargs hpe,
      from_dict_obj_ok m _ kwargs (by rw [processEntries_filter entries m []]; exact hpe)]

/-! ## Element-wise materialization of lists -/

theorem mapItems_spec : ∀ (em : Model) (items : List JsonValue) (rs : List Record),
    mapItems em items = .ok rs →
    rs.length = items.length ∧
    ∀ i : Nat, (items.get? i).map (from_dict (.dataclass em)) = (rs.get? i).map Except.ok
  | em, [], rs, h => by
    rw [mapItems_nil] at h
    injection h with h2
    subst h2
    exact ⟨rfl, fun i => by cases i <;> rfl⟩
  | em, item :: rest, rs, h => by
    cases hfd : from_dict (.dataclass em) item with
    | error e =>
      rw [mapItems_cons_err em item rest e hfd] at h
      simp at h
    | ok r =>
      cases hmi : mapItems em rest with
      | error e =>
        rw [mapItems_cons_ok_err em item rest r e hfd hmi] at h
        simp at h
      | ok rs2 =>
        rw [mapItems_cons_ok_ok em item rest r rs2 hfd hmi] at h
        injection h with h2
        subst h2
        obtain ⟨hlen, hidx⟩ := mapItems_spec em rest rs2 hmi
        refine ⟨by simp [hlen], fun i => ?_⟩
        cases i with
        | zero => simpa using hfd
        | succ j => simpa using hidx j
termination_by _ items _ => items.length
decreasing_by all_goals simp

/-! ## Keys never supplied stay unset -/

theorem processEntries_lookup_none : ∀ (entries : List (String × JsonValue)) (m : Model)
    (kwargs kw2 : List (String × RValue)) (f : String),
    processEntries m kwargs entries = .ok kw2 →
    List.lookup f kwargs = none → f ∉ entries.map Prod.fst →
    List.lookup f kw2 = none
  | [], m, kwargs, kw2, f, hpe, hlkw, _ => by
    rw [processEntries_nil] at hpe
    injection hpe with h2
    exact h2 ▸ hlkw
  | (name, value) :: rest, m, kwargs, kw2, f, hpe, hlkw, hni => by
    have hfn : f ≠ name := by
      intro he
      exact hni (by simp [he])
    have hni2 : f ∉ rest.map Prod.fst := fun hm => hni (by simp [hm])
    have hnext : ∀ v : RValue, List.lookup f (dictSet kwargs name v) = none := by
      intro v
      rw [lookup_dictSet kwargs name f v, if_neg hfn]
      exact hlkw
    cases hlk : List.lookup name (fieldTable m) with
    | none =>
      rw [processEntries_skip_unknown m kwargs name value rest hlk] at hpe
      exact processEntries_lookup_none rest m kwargs kw2 f hpe hlkw hni2
    | some ft =>
      cases ft with
      | scalar =>
        rw [processEntries_scalar m kwargs name value rest hlk] at hpe
        exact processEntries_lookup_none rest m _ kw2 f hpe (hnext _) hni2
      | nested em =>
        cases hv : value.isObj with
        | false =>
          rw [processEntries_nested_skip m kwargs name value rest em hlk hv] at hpe
          exact processEntries_lookup_none rest m kwargs kw2 f hpe hlkw hni2
        | true =>
          cases value with
          | obj es =>
            cases hfd : from_dict (.dataclass em) (.obj es) with
            | error e =>
              rw [processEntries_nested_obj_err m kwargs name es rest em e hlk hfd] at hpe
              simp at hpe
            | ok r =>
              rw [processEntries_nested_obj_ok m kwargs name es rest em r hlk hfd] at hpe
              exact processEntries_lookup_none rest m _ kw2 f hpe (hnext _) hni2
          | null => simp [JsonValue.isObj] at hv
          | bool b => simp [JsonValue.isObj] at hv
          | num q => simp [JsonValue.isObj] at hv
          | str s => simp [JsonValue.isObj] at hv
          | arr items => simp [JsonValue.isObj] at hv
      | listOf em =>
        cases hv : value.isArr with
        | false =>
          rw [processEntries_list_skip m kwargs name value rest em hlk hv] at hpe
          exact processEntries_lookup_none rest m kwargs kw2 f hpe hlkw hni2
        | true =>
          cases value with
          | arr items =>
            cases hmi : mapItems em items with
            | error e =>
              rw [processEntries_list_err m kwargs name items rest em e hlk hmi] at hpe
              simp at hpe
            | ok rs =>
              rw [processEntries_list_ok m kwargs name items rest em rs hlk hmi] at hpe
              exact processEntries_lookup_none rest m _ kw2 f hpe (hnext _) hni2
          | null => simp [JsonValue.isArr] at hv
          | bool b => simp [JsonValue.isArr] at hv
          | num q => simp [JsonValue.isArr] at hv
          | str s => simp [JsonValue.isArr] at hv
          | obj es => simp [JsonValue.isArr] at hv
termination_by entries _ _ _ _ => entries.length
decreasing_by all_goals simp

/-! ## Construction failure for required fields -/

theorem missingOf_mem (m : Model) (kwargs : List (String × RValue)) (f : String)
    (ft : FieldType) (hf : (f, ft, none) ∈ m.fields)
    (hlk : List.lookup f kwargs = none) : f ∈ missingOf m kwargs := by
  unfold missingOf
  refine List.mem_map.mpr ⟨(f, ft, none), ?_, rfl⟩
  refine List.mem_filter.mpr ⟨hf, ?_⟩
  simp [hlk]

theorem construct_missing (m : Model) (kwargs : List (String × RValue))
    (hne : missingOf m kwargs ≠ []) :
    construct m kwargs = .error (.missingField m.name (missingOf m kwargs)) := by
  unfold construct
  rw [if_neg hne]

/-! ## A valid schema never triggers the dataclass guard -/

theorem construct_not_schemaErr (m : Model) (kwargs : List (String × RValue))
    (msg : String) : construct m kwargs ≠ .error (.schemaErr msg) := by
  unfold construct
  by_cases h : missingOf m kwargs = []
  · rw [if_pos h]
    simp
  · rw [if_neg h]
    simp

theorem no_schemaErr : ∀ (n : Nat),
    (∀ (m : Model) (data : JsonValue), sizeOf data ≤ n → ∀ msg : String,
      from_dict (.dataclass m) data ≠ .error (.schemaErr msg)) ∧
    (∀ (m : Model) (kwargs : List (String × RValue))
        (entries : List (String × JsonValue)), sizeOf entries ≤ n → ∀ msg : String,
      processEntries m kwargs entries ≠ .error (.schemaErr msg)) ∧
    (∀ (em : Model) (items : List JsonValue), sizeOf items ≤ n → ∀ msg : String,
      mapItems em items ≠ .error (.schemaErr msg)) := by
  intro n
  induction n using Nat.strong_induction_on with
  | _ n ih =>
    refine ⟨?_, ?_, ?_⟩
    · intro m data hsz msg hcon
      cases data with
      | obj entries =>
        have hlt : sizeOf entries < n := by
          have : sizeOf (JsonValue.obj entries) = 1 + sizeOf entries := by simp
          omega
        cases hpe : processEntries m [] entries with
        | error e =>
          rw [from_dict_obj_err m entries e hpe] at hcon
          injection hcon with h2
          subst h2
          exact (ih (sizeOf entries) hlt).2.1 m [] entries Nat.le.refl msg hpe
        | ok kwargs =>
          rw [from_dict_obj_ok m entries kwargs hpe] at hcon
          exact construct_not_schemaErr m kwargs msg hcon
      | null => rw [from_dict_not_obj m .null rfl] at hcon; simp at hcon
      | bool b => rw [from_dict_not_obj m (.bool b) rfl] at hcon; simp at hcon
      | num q => rw [from_dict_not_obj m (.num q) rfl] at hcon; simp at hcon
      | str s => rw [from_dict_not_obj m (.str s) rfl] at hcon; simp at hcon
      | arr items => rw [from_dict_not_obj m (.arr items) rfl] at hcon; simp at hcon
    · intro m kwargs entries hsz msg hcon
      match entries with
      | [] => rw [processEntries_nil] at hcon; simp at hcon
      | (name, value) :: rest =>
        have hszc : sizeOf ((name, value) :: rest)
            = 1 + (1 + sizeOf name + sizeOf value) + sizeOf rest := by simp
        have hltr : sizeOf rest < n := by omega
        have hltv : sizeOf value < n := by omega
        cases hlk : List.lookup name (fieldTable m) with
        | none =>
          rw [processEntries_skip_unknown m kwargs name value rest hlk] at hcon
          exact (ih (sizeOf rest) hltr).2.1 m kwargs rest Nat.le.refl msg hcon
        | some ft =>
          cases ft with
          | scalar =>
            rw [processEntries_scalar m kwargs name value rest hlk] at hcon
            exact (ih (sizeOf rest) hltr).2.1 m _ rest Nat.le.refl msg hcon
          | nested em =>
            cases hv : value.isObj with
            | false =>
              rw [processEntries_nested_skip m kwargs name value rest em hlk hv] at hcon
              exact (ih (sizeOf rest) hltr).2.1 m kwargs rest Nat.le.refl msg hcon
            | true =>
              cases value with
              | obj es =>
                cases hfd : from_dict (.dataclass em) (.obj es) with
                | error e =>
                  rw [processEntries_nested_obj_err m kwargs name es rest em e hlk hfd]
                    at hcon
                  injection hcon with h2
                  subst h2
                  exact (ih (sizeOf (JsonValue.obj es)) hltv).1 em (.obj es)
                    Nat.le.refl msg hfd
                | ok r =>
                  rw [processEntries_nested_obj_ok m kwargs name es rest em r hlk hfd]
                    at hcon
                  exact (ih (sizeOf rest) hltr).2.1 m _ rest Nat.le.refl msg hcon
              | null => simp [JsonValue.isObj] at hv
              | bool b => simp [JsonValue.isObj] at hv
              | num q => simp [JsonValue.isObj] at hv
              | str s => simp [JsonValue.isObj] at hv
              | arr items => simp [JsonValue.isObj] at hv
          | listOf em =>
            cases hv : value.isArr with
            | false =>
              rw [processEntries_list_skip m kwargs name value rest em hlk hv] at hcon
              exact (ih (sizeOf rest) hltr).2.1 m kwargs rest Nat.le.refl msg hcon
            | true =>
              cases value with
              | arr items =>
                have hlti : sizeOf items < n := by
                  have : sizeOf (JsonValue.arr items) = 1 + sizeOf items := by simp
                  omega
                cases hmi : mapItems em items with
                | error e =>
                  rw [processEntries_list_err m kwargs name items rest em e hlk hmi]
                    at hcon
                  injection hcon with h2
                  subst h2
                  exact (ih (sizeOf items) hlti).2.2 em items Nat.le.refl msg hmi
                | ok rs =>
                  rw [processEntries_list_ok m kwargs name items rest em rs hlk hmi]
                    at hcon
                  exact (ih (sizeOf rest) hltr).2.1 m _ rest Nat.le.refl msg hcon
              | null => simp [JsonValue.isArr] at hv
              | bool b => simp [JsonValue.isArr] at hv
              | num q => simp [JsonValue.isArr] at hv
              | str s => simp [JsonValue.isArr] at hv
              | obj es => simp [JsonValue.isArr] at hv
    · intro em items hsz msg hcon
      match items with
      | [] => rw [mapItems_nil] at hcon; simp at hcon
      | item :: rest =>
        have hszc : sizeOf (item :: rest) = 1 + sizeOf item + sizeOf rest := by simp
        have hlti : sizeOf item < n := by omega
        have hltr : sizeOf rest < n := by omega
        cases hfd : from_dict (.dataclass em) item with
        | error e =>
          rw [mapItems_cons_err em item rest e hfd] at hcon
          injection hcon with h2
          subst h2
          exact (ih (sizeOf item) hlti).1 em item Nat.le.refl msg hfd
        | ok r =>
          cases hmi : mapItems em rest with
          | error e =>
            rw [mapItems_cons_ok_err em item rest r e hfd hmi] at hcon
            injection hcon with h2
            subst h2
            exact (ih (sizeOf rest) hltr).2.2 em rest Nat.le.refl msg hmi
          | ok rs =>
            rw [mapItems_cons_ok_ok em item rest r rs hfd hmi] at hcon
            simp at hcon

theorem from_dict_entries_congr (m : Model) (e1 e2 : List (String × JsonValue))
    (h : processEntries m [] e1 = processEntries m [] e2) :
    from_dict (.dataclass m) (.obj e1) = from_dict (.dataclass m) (.obj e2) := by
  cases hpe : processEntries m [] e2 with
  | error e => rw [from_dict_obj_err m e1 e (h.trans hpe), from_dict_obj_err m e2 e hpe]
  | ok kw => rw [from_dict_obj_ok m e1 kw (h.trans hpe), from_dict_obj_ok m e2 kw hpe]

/-! ## The claims -/

/-- C1: `materialize` ignores every input key that is not a declared
field of the target schema — restricting the input to declared keys
gives the same result as the full input — and a declared nested-record
field whose value is a mapping is materialized recursively; on the Song
example with extra key `unused_future_field` the result is the fully
materialized Song whose `artist` field is Artist(id=2, name="A"), and
dropping the unknown key leaves the result unchanged. -/
theorem claim_C1_materialize_ignores_unknown_keys :
    (∀ (m : Model) (entries : List (String × JsonValue)),
      from_dict (.dataclass m)
          (.obj (entries.filter fun e => (List.lookup e.1 (fieldTable m)).isSome))
        = from_dict (.dataclass m) (.obj entries))
    ∧ (∀ (m : Model) (kwargs : List (String × RValue)) (name : String)
        (es rest : List (String × JsonValue)) (em : Model) (r : Record),
      List.lookup name (fieldTable m) = some (.nested em) →
      from_dict (.dataclass em) (.obj es) = .ok r →
      processEntries m kwargs ((name, .obj es) :: rest)
        = processEntries m (dictSet kwargs name (.nestedRec r)) rest)
    ∧ from_dict (.dataclass Song) (.obj songInput) = .ok songRec
    ∧ from_dict (.dataclass Song)
        (.obj (songInput.filter fun e => e.1 ≠ "unused_future_field")) = .ok songRec
    ∧ List.lookup "artist" songRec.fields = some (.nestedRec artistRec) := by
  refine ⟨from_dict_filter, ?_, rfl, rfl, rfl⟩
  intro m kwargs name es rest em r hlk hfd
  exact processEntries_nested_obj_ok m kwargs name es rest em r hlk hfd

/-- Witness for C1: the nested-record step at a concrete input — the
`artist` sub-mapping of the Song example is recursively materialized
into the Artist record. -/
theorem claim_C1_witness :
    processEntries Song [] [("artist", .obj [("id", .num 2), ("name", .str "A")])]
      = processEntries Song (dictSet [] "artist" (.nestedRec artistRec)) [] :=
  claim_C1_materialize_ignores_unknown_keys.2.1 Song [] "artist"
    [("id", .num 2), ("name", .str "A")] [] Artist artistRec rfl rfl

/-- C2 as frozen says the run-start separator is inserted "when
preceded by any character"; `.` in the first Python pattern does not
match a newline, so on `"\nAb"` the code inserts nothing while the
claim's rule inserts one separator. -/
theorem claim_C2_counterexample :
    to_snake_case "\nAb" = "\nab" ∧ snakeSpecClaim "\nAb" = "\n_ab" ∧
    to_snake_case "\nAb" ≠ snakeSpecClaim "\nAb" :=
  ⟨rfl, rfl, by decide⟩

/-- C2 (amended): for every string, `_to_snake_case` inserts a
separator before each uppercase letter that follows a lowercase letter
or digit and before each run-start of uppercase letters followed by
lowercase letters when preceded by any character other than a newline,
then lowercases the result; in particular the four service identifiers
map as enumerated. -/
theorem claim_C2_snake_case_rule :
    (∀ s : String, to_snake_case s = snakeSpecAmended s)
    ∧ to_snake_case "startedAt" = "started_at"
    ∧ to_snake_case "createdAt" = "created_at"
    ∧ to_snake_case "revisionId" = "revision_id"
    ∧ to_snake_case "isChorus" = "is_chorus" :=
  ⟨to_snake_case_eq_amended, rfl, rfl, rfl, rfl⟩

/-- C3: `normalizeKeys` rebuilds a mapping with every key converted and
every value recursively normalized — entry for entry when the converted
keys do not collide (on a collision the Python dict comprehension keeps
the first position and the last value; even then every entry of the
result is a converted key with a recursively normalized value) — keeps
every sequence's length and order (it maps the conversion over the
elements), and passes every scalar through unchanged; a nested concrete
value is converted at every depth. -/
theorem claim_C3_normalize_keys :
    (∀ entries : List (String × JsonValue),
      (entries.map fun p => to_snake_case p.1).Nodup →
      convert_keys_to_snake_case (.obj entries)
        = .obj (entries.map fun p => (to_snake_case p.1, convert_keys_to_snake_case p.2)))
    ∧ (∀ (entries : List (String × JsonValue)) (p : String × JsonValue),
      p ∈ convObj [] entries →
      ∃ q ∈ entries, p = (to_snake_case q.1, convert_keys_to_snake_case q.2))
    ∧ (∀ items : List JsonValue,
      convert_keys_to_snake_case (.arr items) = .arr (items.map convert_keys_to_snake_case))
    ∧ convert_keys_to_snake_case .null = .null
    ∧ (∀ b : Bool, convert_keys_to_snake_case (.bool b) = .bool b)
    ∧ (∀ n : Int, convert_keys_to_snake_case (.num n) = .num n)
    ∧ (∀ s : String, convert_keys_to_snake_case (.str s) = .str s)
    ∧ convert_keys_to_snake_case
        (.obj [("revisionId", .num 1), ("isChorus", .bool true),
               ("inner", .arr [.obj [("createdAt", .str "x")], .num 7])])
        = .obj [("revision_id", .num 1), ("is_chorus", .bool true),
                ("inner", .arr [.obj [("created_at", .str "x")], .num 7])] := by
  refine ⟨?_, ?_, ?_, rfl, fun _ => rfl, fun _ => rfl, fun _ => rfl, rfl⟩
  · intro entries h
    rw [show convert_keys_to_snake_case (.obj entries) = .obj (convObj [] entries) from rfl]
    rw [convObj_eq_map entries [] h (by simp)]
    rfl
  · intro entries p hp
    rcases convObj_mem entries [] p hp with h | h
    · simp at h
    · exact h
  · intro items
    rw [show convert_keys_to_snake_case (.arr items) = .arr (convList items) from rfl]
    rw [convList_eq_map]

/-- Witness for C3: the mapping clause applied at a concrete input. -/
theorem claim_C3_witness :
    convert_keys_to_snake_case (.obj [("revisionId", .num 1), ("isChorus", .bool true)])
      = .obj [("revision_id", .num 1), ("is_chorus", .bool true)] :=
  claim_C3_normalize_keys.1 [("revisionId", .num 1), ("isChorus", .bool true)] (by decide)

/-- C4: for a declared list-of-nested-record field given a sequence,
materialization assigns the field the element-wise materialization of
the sequence, which has the same length and whose i-th element is the
materialization of the i-th input element — order is preserved, never
re-sorted; the BeatInfo example keeps its three beats in input order. -/
theorem claim_C4_list_order :
    (∀ (em : Model) (items : List JsonValue) (rs : List Record),
      mapItems em items = .ok rs →
      rs.length = items.length ∧
      ∀ i : Nat, (items.get? i).map (from_dict (.dataclass em)) = (rs.get? i).map Except.ok)
    ∧ (∀ (m : Model) (kwargs : List (String × RValue)) (name : String)
        (items : List JsonValue) (rest : List (String × JsonValue))
        (em : Model) (rs : List Record),
      List.lookup name (fieldTable m) = some (.listOf em) →
      mapItems em items = .ok rs →
      processEntries m kwargs ((name, .arr items) :: rest)
        = processEntries m (dictSet kwargs name (.nestedList rs)) rest)
    ∧ from_dict (.dataclass BeatInfo) (.obj [("beats", .arr [beatObj 0, beatObj 1, beatObj 2])])
        = .ok (.mk "BeatInfo" [("beats", .nestedList [beatRec 0, beatRec 1, beatRec 2])]) :=
  ⟨mapItems_spec, processEntries_list_ok, rfl⟩

/-- Witness for C4: length preservation and the element at index 1 for
a concrete two-beat list. -/
theorem claim_C4_witness :
    ([beatRec 0, beatRec 1] : List Record).length
        = ([beatObj 0, beatObj 1] : List JsonValue).length
    ∧ (([beatObj 0, beatObj 1] : List JsonValue).get? 1).map (from_dict (.dataclass Beat))
        = (([beatRec 0, beatRec 1] : List Record).get? 1).map Except.ok := by
  obtain ⟨h1, h2⟩ :=
    claim_C4_list_order.1 Beat [beatObj 0, beatObj 1] [beatRec 0, beatRec 1] rfl
  exact ⟨h1, h2 1⟩

/-- C5 as frozen quantifies over every input mapping; when a supplied
value itself fails to materialize, that failure preempts the
missing-field check.  On Song with input `{"artist": {}}` the required
`title` is absent with no default, yet the raised error names the
nested schema Artist and its fields, not `title` and Song. -/
theorem claim_C5_counterexample :
    from_dict (.dataclass Song) (.obj [("artist", .obj [])])
      = .error (.missingField "Artist" ["id", "name"])
    ∧ "title" ∉ (["id", "name"] : List String) ∧ "Artist" ≠ "Song" :=
  ⟨rfl, by decide, by decide⟩

/-- C5 (amended): when processing the supplied values raises no error,
a schema field with no default that is absent from the input makes
`materialize` fail with a MissingFieldError naming the schema and
listing the field among the missing ones (Python's `TypeError` from
`model(**kwargs)` lists every missing field; it is a different
exception class from the HTTP-status `SongleApiException`); in
particular Song without `"title"` raises MissingFieldError naming
`title` and Song. -/
theorem claim_C5_missing_field :
    (∀ (m : Model) (entries : List (String × JsonValue)) (kw : List (String × RValue))
        (fname : String) (ft : FieldType),
      (fname, ft, none) ∈ m.fields →
      fname ∉ entries.map Prod.fst →
      processEntries m [] entries = .ok kw →
      from_dict (.dataclass m) (.obj entries)
          = .error (.missingField m.name (missingOf m kw))
        ∧ fname ∈ missingOf m kw)
    ∧ from_dict (.dataclass Song) (.obj songInputNoTitle)
        = .error (.missingField "Song" ["title"]) := by
  constructor
  · intro m entries kw fname ft hf hni hpe
    have hlk : List.lookup fname kw = none :=
      processEntries_lookup_none entries m [] kw fname hpe rfl hni
    have hmem := missingOf_mem m kw fname ft hf hlk
    have hne : missingOf m kw ≠ [] := by
      intro h0
      rw [h0] at hmem
      simp at hmem
    rw [from_dict_obj_ok m entries kw hpe, construct_missing m kw hne]
    exact ⟨rfl, hmem⟩
  · rfl

/-- Witness for C5: the general clause applied to Song and the payload
missing `title`. -/
theorem claim_C5_witness :
    from_dict (.dataclass Song) (.obj songInputNoTitle)
      = .error (.missingField "Song" (missingOf Song songKwNoTitle))
    ∧ "title" ∈ missingOf Song songKwNoTitle :=
  claim_C5_missing_field.1 Song songInputNoTitle songKwNoTitle "title" .scalar
    (List.mem_cons_of_mem _ (List.mem_cons_self _ _)) (by decide) rfl

/-- C6: a non-dataclass `model` argument raises the `TypeError` guard
("Expected a dataclass type, ...") before the data is inspected — for
every data value, including non-mappings; a dataclass schema never
produces that error: its result is a record, a MissingFieldError, or
the AttributeError of iterating a non-mapping. -/
theorem claim_C6_schema_error :
    (∀ (reprName : String) (data : JsonValue),
      from_dict (.other reprName) data
        = .error (.schemaErr ("Expected a dataclass type, but got " ++ reprName ++ ".")))
    ∧ (∀ (m : Model) (data : JsonValue),
      (∃ r, from_dict (.dataclass m) data = .ok r)
      ∨ (∃ mname missing,
          from_dict (.dataclass m) data = .error (.missingField mname missing))
      ∨ from_dict (.dataclass m) data = .error .attrErr) := by
  refine ⟨from_dict_other, ?_⟩
  intro m data
  cases hfd : from_dict (.dataclass m) data with
  | ok r => exact Or.inl ⟨r, rfl⟩
  | error e =>
    cases e with
    | schemaErr msg =>
      exact absurd hfd ((no_schemaErr (sizeOf data)).1 m data Nat.le.refl msg)
    | missingField mn ms => exact Or.inr (Or.inl ⟨mn, ms, rfl⟩)
    | attrErr => exact Or.inr (Or.inr rfl)

/-- C7: a declared nested-record field whose value is not a mapping,
and a declared list field whose value is not a sequence, are left unset
silently — materialization proceeds exactly as if the entry were
absent; a field with a declared default then retains that default. -/
theorem claim_C7_mismatched_value_left_unset :
    (∀ (m : Model) (name : String) (value : JsonValue)
        (rest : List (String × JsonValue)) (em : Model),
      List.lookup name (fieldTable m) = some (.nested em) →
      value.isObj = false →
      from_dict (.dataclass m) (.obj ((name, value) :: rest))
        = from_dict (.dataclass m) (.obj rest))
    ∧ (∀ (m : Model) (name : String) (value : JsonValue)
        (rest : List (String × JsonValue)) (em : Model),
      List.lookup name (fieldTable m) = some (.listOf em) →
      value.isArr = false →
      from_dict (.dataclass m) (.obj ((name, value) :: rest))
        = from_dict (.dataclass m) (.obj rest))
    ∧ from_dict (.dataclass WithDefault) (.obj [("owner", .num 5)])
        = .ok (.mk "WithDefault" [("owner", .nestedRec artistDefault)]) := by
  refine ⟨?_, ?_, rfl⟩
  · intro m name value rest em hlk hv
    exact from_dict_entries_congr m _ rest
      (processEntries_nested_skip m [] name value rest em hlk hv)
  · intro m name value rest em hlk hv
    exact from_dict_entries_congr m _ rest
      (processEntries_list_skip m [] name value rest em hlk hv)

/-- Witness for C7: a number supplied for Song's nested `artist` field
and for BeatInfo's list field `beats` is ignored like an absent key. -/
theorem claim_C7_witness :
    from_dict (.dataclass Song) (.obj [("artist", .num 3)])
        = from_dict (.dataclass Song) (.obj [])
    ∧ from_dict (.dataclass BeatInfo) (.obj [("beats", .num 7)])
        = from_dict (.dataclass BeatInfo) (.obj []) :=
  ⟨claim_C7_mismatched_value_left_unset.1 Song "artist" (.num 3) [] Artist rfl rfl,
   claim_C7_mismatched_value_left_unset.2.1 BeatInfo "beats" (.num 7) [] Beat rfl rfl⟩

/-- C8 as frozen requires the transport-failure status to be distinct
from any real HTTP status code; the code uses `status_code=500`, which
is a real HTTP status (Internal Server Error). -/
theorem claim_C8_counterexample :
    Songle.get (.networkFailure "connection refused")
      = .error { status_code := 500, message := "Request failed: connection refused" }
    ∧ isRealHttpStatus 500 :=
  ⟨rfl, by decide⟩

/-- C8 (amended): every transport-level failure (a `RequestException`
before any response) surfaces as `SongleApiException` with the fixed
status 500 — which coincides with the real HTTP 500 code rather than
being a distinct sentinel — and a descriptive "Request failed: ..."
message; `_fetch_and_parse` propagates it to the caller of every public
operation. -/
theorem claim_C8_transport_error :
    (∀ msg : String,
      Songle.get (.networkFailure msg)
        = .error { status_code := 500, message := "Request failed: " ++ msg })
    ∧ (∀ (model : PyType) (msg : String),
      Songle.fetch_and_parse model (.networkFailure msg)
        = .error (.api { status_code := 500, message := "Request failed: " ++ msg })) :=
  ⟨fun _ => rfl, fun _ _ => rfl⟩

/-- C9 as frozen covers every non-2xx status, but
`response.raise_for_status()` raises only for 4xx/5xx: a 304 response
is not an error — `_get` returns its parsed body. -/
theorem claim_C9_counterexample :
    Songle.get (.response 304 "not modified" .null) = .ok .null ∧ ¬ is2xx 304 :=
  ⟨rfl, by decide⟩

/-- C9 (amended): every response with a 4xx or 5xx status surfaces as
`SongleApiException` carrying the response's numeric status code and a
message embedding the raw body text ("Error response from API: <body>");
`_fetch_and_parse` propagates it unchanged, and HTTP 404 with body
"not found" yields status 404 with that body in the message. -/
theorem claim_C9_http_status_error :
    (∀ (status : Int) (text : String) (body : JsonValue) (model : PyType),
      400 ≤ status → status < 600 →
      Songle.get (.response status text body)
          = .error { status_code := status, message := "Error response from API: " ++ text }
        ∧ Songle.fetch_and_parse model (.response status text body)
          = .error (.api { status_code := status,
                           message := "Error response from API: " ++ text }))
    ∧ Songle.get (.response 404 "not found" .null)
        = .error { status_code := 404, message := "Error response from API: not found" } := by
  constructor
  · intro status text body model h4 h6
    have hget : Songle.get (.response status text body)
        = .error { status_code := status,
                   message := "Error response from API: " ++ text } := by
      unfold Songle.get
      simp only []
      rw [if_pos (⟨h4, h6⟩ : 400 ≤ status ∧ status < 600)]
    refine ⟨hget, ?_⟩
    unfold Songle.fetch_and_parse
    rw [hget]
  · rfl

/-- Witness for C9: the 404 / "not found" response through `_get` and
through the fetch-and-parse pipeline. -/
theorem claim_C9_witness :
    Songle.get (.response 404 "not found" .null)
        = .error { status_code := 404, message := "Error response from API: not found" }
    ∧ Songle.fetch_and_parse (.dataclass Song) (.response 404 "not found" .null)
        = .error (.api { status_code := 404,
                         message := "Error response from API: not found" }) :=
  claim_C9_http_status_error.1 404 "not found" .null (.dataclass Song)
    (by decide) (by decide)

/-- C10: `_to_snake_case` is idempotent — its output contains no ASCII
uppercase letter (`.lower()` ran last), and both substitution patterns
require an uppercase letter to match, so a second application changes
nothing; consequently `_convert_keys_to_snake_case` is idempotent on
every JSON-like value. -/
theorem claim_C10_idempotent :
    (∀ s : String, to_snake_case (to_snake_case s) = to_snake_case s)
    ∧ (∀ s : String, ((to_snake_case s).data.all fun c => !isUpperAZ c) = true)
    ∧ (∀ v : JsonValue,
      convert_keys_to_snake_case (convert_keys_to_snake_case v)
        = convert_keys_to_snake_case v) := by
  refine ⟨to_snake_case_idem, ?_, conv_idem⟩
  intro s
  refine List.all_eq_true.mpr fun c hc => ?_
  have : isUpperAZ c = false := no_upper_map_lower _ c hc
  simp [this]
